import Mathlib

/-!
# Verification of the contour-selection algorithm of `MakamFeatureExtractor.py`

Shallow embedding of `PitchExtractMakam.ContourSelection` (and the cents-to-Hz
conversion in `PitchExtractMakam.run`) from
`compmusic/extractors/MakamFeatureExtractor.py`.

The algorithm works on three parallel lists (`pitchContours`,
`contourSaliences`, `startSamples`) that always have equal outer length and are
popped/updated at the same positions; they are embedded as a single list of
`Contour` records.  The conversion from start times to start samples and from
duration to `numSamples` happens in Python floating point before the algorithm
proper; the core is embedded at the sample level, taking the start samples and
`numSamples` as inputs.  Pitch-bin and salience values are embedded as
rationals (the algorithm never computes with them, it only moves them around).
-/

/-- One candidate pitch contour: `startSamples[i]`, `pitchContours[i]`,
`contourSaliences[i]` of the Python code, bundled. -/
structure Contour where
  start : ℕ
  bins : List ℚ
  saliences : List ℚ
deriving Repr, DecidableEq, Inhabited

/-- `lens[i] = len(pitchContours[i])` (line 122). -/
def Contour.len (c : Contour) : ℕ := c.bins.length

/-- `curr_samp_idx = range(startSamples[i], startSamples[i] + lens[i])`
(line 141): the sample indices currently occupied by the contour. -/
def Contour.sampleIdx (c : Contour) : List ℕ := List.range' c.start c.len

/-- The data-model invariant of a well-formed contour:
`len(bins) == len(saliences)`. -/
def Contour.wf (c : Contour) : Prop := c.saliences.length = c.bins.length

instance (c : Contour) : Decidable c.wf := by unfold Contour.wf; infer_instance

/-- Overlap removal for one remaining candidate (lines 140-155).
`curr_samp_idx_noOverlap = sorted(list(set(curr_samp_idx) - set(acc_idx)))`;
if non-empty, the new start sample is its first element and
`keep_idx = [curr_samp_idx.index(c) for c in curr_samp_idx_noOverlap]`
re-indexes both value arrays (numpy fancy indexing `array(xs)[keep_idx]`,
embedded with `getD`: the index is always in bounds for the bins, and in
bounds for the saliences exactly when the contour satisfies `Contour.wf`;
for malformed contours with fewer saliences than bins, numpy instead raises
`IndexError` at line 153 — a path this totalisation collapses to a 0 pad,
so it is modelled separately by `trimSalIndexError` and the other results
about trimming hold on the well-formed data-model domain); if empty the
candidate is marked for removal (`none`, line 155), and the caller drops it
(lines 158-162). -/
def trimContour (accIdx : List ℕ) (c : Contour) : Option Contour :=
  match (c.sampleIdx.toFinset \ accIdx.toFinset).sort (· ≤ ·) with
  | [] => none
  | s0 :: rest =>
    some ⟨s0,
      ((s0 :: rest).map (fun v => c.sampleIdx.indexOf v)).map
        (fun k => c.bins.getD k 0),
      ((s0 :: rest).map (fun v => c.sampleIdx.indexOf v)).map
        (fun k => c.saliences.getD k 0)⟩

/-- Python `max` over a non-empty list of natural numbers (line 125). -/
def listMax (l : List ℕ) : ℕ := l.foldr max 0

/-- `long_idx = lens.index(max(lens))` (line 125): the first position at which
the maximum length occurs. -/
def longIdx (lens : List ℕ) : ℕ := lens.indexOf (listMax lens)

/-- One pass of the `while pitchContours:` loop body plus the recursive rest
(lines 119-162), written with explicit fuel so that the recursion is
structural; `selectionGo_fuel_irrel` below shows the fuel is irrelevant as soon
as it is at least the working-set length, which `selectionLoop` supplies.
The state is (working set, accepted list, `acc_idx`); the loop pops the
first longest contour, appends its sample range to `acc_idx`, and trims or
drops every remaining candidate. -/
def selectionGo : ℕ → List Contour → List Contour → List ℕ →
    List Contour × List Contour × List ℕ
  | 0, ws, accepted, accIdx => (ws, accepted, accIdx)
  | fuel + 1, ws, accepted, accIdx =>
    if ws = [] then (ws, accepted, accIdx)
    else
      let lens := ws.map Contour.len
      let i := longIdx lens
      let a := ws.getD i default
      let accIdx2 := accIdx ++ a.sampleIdx
      let ws2 := (ws.eraseIdx i).filterMap (trimContour accIdx2)
      selectionGo fuel ws2 (accepted ++ [a]) accIdx2

/-- The selection loop of `ContourSelection` (lines 119-162).  Returns the
final values of the three mutated working lists (always empty at exit), the
accepted contours (`pitchContours_noOverlap` / `contourSaliences_noOverlap` /
`startSamples_noOverlap`, in acceptance order) and the final `acc_idx`. -/
def selectionLoop (ws accepted : List Contour) (accIdx : List ℕ) :
    List Contour × List Contour × List ℕ :=
  selectionGo ws.length ws accepted accIdx

/-- numpy 1-D basic-slice assignment `arr[start:stop] = vals` (with
`start ≤ stop`): the selected slice covers positions
`[min start len, min stop len)` (indices clamp to the array length).  The
assignment succeeds when the slice length equals `vals.length`, and also —
numpy broadcasting — when `vals` has length 1, in which case the single value
fills the slice (a silent no-op when the clamped slice is empty, as for a
single-sample contour past the end of the timeline).  Any other length
mismatch raises a broadcast `ValueError` (`none`). -/
def writeSlice (arr : List ℚ) (start stop : ℕ) (vals : List ℚ) :
    Option (List ℚ) :=
  if min stop arr.length - min start arr.length = vals.length then
    some (arr.take (min start arr.length) ++ vals ++
      arr.drop (min stop arr.length))
  else if vals.length = 1 then
    some (arr.take (min start arr.length) ++
      List.replicate (min stop arr.length - min start arr.length)
        (vals.headD 0) ++
      arr.drop (min stop arr.length))
  else none

/-- Lines 167-172: write one accepted contour into the two output rows.
`endSample = startSample + len(pitchContours_noOverlap[i])` is used for both
rows, so the salience assignment broadcasts `saliences` into a slice of length
`len(bins)`. -/
def writeContour (ps : List ℚ × List ℚ) (c : Contour) :
    Option (List ℚ × List ℚ) := do
  let p ← writeSlice ps.1 c.start (c.start + c.len) c.bins
  let s ← writeSlice ps.2 c.start (c.start + c.len) c.saliences
  pure (p, s)

/-- `ContourSelection` at the sample level (lines 104-174): run the selection
loop starting from the input contours with empty accumulators, then write each
accepted contour once, in acceptance order, into zero-initialised `pitch` and
`salience` arrays of length `numSamples` (lines 165-172). -/
def contourSelection (contours : List Contour) (numSamples : ℕ) :
    Option (List ℚ × List ℚ) :=
  let res := selectionLoop contours [] []
  res.2.1.foldlM writeContour
    (List.replicate numSamples 0, List.replicate numSamples 0)

/-- Sample index `i` is touched by at least one contour of `cs`. -/
def coveredBy (cs : List Contour) (i : ℕ) : Prop := ∃ c ∈ cs, i ∈ c.sampleIdx

instance (cs : List Contour) (i : ℕ) : Decidable (coveredBy cs i) :=
  List.decidableBEx _ cs

/-- `binResolution` setting of the extractor (line 41). -/
def binResolution : ℝ := 7.5

/-- The cent-to-Hz conversion applied to each selected pitch value
(line 95): `0. if p == 0 else 55.*(2.**(((binResolution*(p)))/1200))`. -/
noncomputable def centToHz (p : ℚ) : ℝ :=
  if p = 0 then 0 else 55 * (2 : ℝ) ^ ((binResolution * (p : ℝ)) / 1200)

/-- The list comprehension of line 95 over the whole pitch row. -/
noncomputable def pitchToHz (pitch : List ℚ) : List ℝ :=
  pitch.map centToHz

/-- The spec's formula for the downstream Hz value, stated in its own words:
`0 if bin == 0 else referenceFrequency * 2^(binResolution * bin / 1200)`. -/
noncomputable def specHzFormula (referenceFrequency binRes : ℝ) (p : ℚ) : ℝ :=
  if p = 0 then 0 else referenceFrequency * (2 : ℝ) ^ (binRes * (p : ℝ) / 1200)

/-! ## Facts about `listMax` and `longIdx` -/

theorem listMax_cons (x : ℕ) (xs : List ℕ) :
    listMax (x :: xs) = max x (listMax xs) := rfl

theorem listMax_mem {l : List ℕ} (h : l ≠ []) : listMax l ∈ l := by
  induction l with
  | nil => cases h rfl
  | cons x xs ih =>
    rcases max_choice x (listMax xs) with hc | hc <;> rw [listMax_cons, hc]
    · exact List.mem_cons_self _ _
    · by_cases hxs : xs = []
      · subst hxs
        simp only [listMax, List.foldr_nil]
        have : max x 0 = x := Nat.max_eq_left (Nat.zero_le x)
        simp only [listMax, List.foldr_nil] at hc
        rw [this] at hc
        simp [← hc]
      · exact List.mem_cons_of_mem _ (ih hxs)

theorem le_listMax {l : List ℕ} {x : ℕ} (h : x ∈ l) : x ≤ listMax l := by
  induction l with
  | nil => cases h
  | cons y ys ih =>
    rcases List.mem_cons.mp h with rfl | hmem
    · exact Nat.le_max_left _ _
    · exact le_trans (ih hmem) (Nat.le_max_right _ _)

theorem longIdx_lt {lens : List ℕ} (h : lens ≠ []) : longIdx lens < lens.length :=
  List.indexOf_lt_length.mpr (listMax_mem h)

theorem getElem_longIdx {lens : List ℕ} (h : lens ≠ []) :
    lens.get ⟨longIdx lens, longIdx_lt h⟩ = listMax lens := by
  rw [List.get_eq_getElem]
  exact List.getElem_indexOf _

theorem getElem_ne_of_lt_indexOf {l : List ℕ} {a : ℕ} {j : ℕ}
    (hj : j < l.indexOf a) (hl : j < l.length) : l[j] ≠ a := by
  induction l generalizing j with
  | nil => simp at hl
  | cons x xs ih =>
    rw [List.indexOf_cons] at hj
    by_cases hx : x = a
    · simp [hx] at hj
    · have hbeq : (x == a) = false := beq_false_of_ne hx
      rw [hbeq, cond_false] at hj
      cases j with
      | zero => simpa using hx
      | succ j =>
        simpa using ih (Nat.lt_of_succ_lt_succ hj) (Nat.lt_of_succ_lt_succ hl)

/-! ## Facts about `range'`, membership decomposition, `eraseIdx` -/

theorem sorted_lt_range' (s n : ℕ) : List.Sorted (· < ·) (List.range' s n) :=
  List.pairwise_lt_range' s n 1 (by omega)

theorem indexOf_range' {s n v : ℕ} (h : v ∈ List.range' s n) :
    (List.range' s n).indexOf v = v - s := by
  induction n generalizing s with
  | zero => simp at h
  | succ n ih =>
    rw [List.range'_succ] at h ⊢
    rw [List.indexOf_cons]
    by_cases hv : s = v
    · subst hv; simp
    · have hbeq : (s == v) = false := beq_false_of_ne hv
      rw [hbeq, cond_false]
      have hmem : v ∈ List.range' (s + 1) n := by
        rcases List.mem_cons.mp h with rfl | hm
        · cases hv rfl
        · exact hm
      have hv1 : s + 1 ≤ v := (List.mem_range'_1.mp hmem).1
      rw [ih hmem]
      omega

theorem map_sub_range' {s0 s n : ℕ} (h : s0 ≤ s) :
    (List.range' s n).map (fun v => v - s0) = List.range' (s - s0) n := by
  induction n generalizing s with
  | zero => simp
  | succ n ih =>
    rw [List.range'_succ, List.range'_succ]
    simp only [List.map_cons]
    rw [ih (by omega)]
    have h1 : s + 1 - s0 = s - s0 + 1 := by omega
    rw [h1]

theorem range'_split {s L k : ℕ} (h : k ≤ L) :
    List.range' s L = List.range' s k ++ List.range' (s + k) (L - k) := by
  have h0 := List.range'_append s k (L - k) 1
  rw [Nat.one_mul] at h0
  have h2 : L - k + k = L := by omega
  rw [h2] at h0
  exact h0.symm

/-- Removing one interval from a shorter-or-equal interval never splits it:
the survivors of `range' s L` after deleting everything in `range' t M`
(with `L ≤ M`) form a single contiguous block inside the original range. -/
theorem filter_range'_diff_range' {s L t M : ℕ} (h : L ≤ M) :
    ∃ s2 L2, s ≤ s2 ∧ s2 + L2 ≤ s + L ∧
      (List.range' s L).filter (fun x => decide (x ∉ List.range' t M)) =
        List.range' s2 L2 := by
  by_cases hout : t + M ≤ s ∨ s + L ≤ t
  · refine ⟨s, L, le_rfl, le_rfl, ?_⟩
    rw [List.filter_eq_self]
    intro x hx
    have := List.mem_range'_1.mp hx
    simp only [decide_eq_true_eq, List.mem_range'_1]
    omega
  · push_neg at hout
    by_cases hall : t ≤ s ∧ s + L ≤ t + M
    · refine ⟨s, 0, le_rfl, by omega, ?_⟩
      rw [List.range']
      rw [List.filter_eq_nil_iff]
      intro x hx
      have := List.mem_range'_1.mp hx
      simp only [decide_eq_true_eq, List.mem_range'_1, not_not]
      omega
    · by_cases hts : t ≤ s
      · -- the removed interval covers a left part of `[s, s+L)`
        have hlt : t + M < s + L := by
          rcases not_and_or.mp hall with h1 | h2
          · exact absurd hts h1
          · omega
        refine ⟨t + M, s + L - (t + M), by omega, by omega, ?_⟩
        rw [range'_split (s := s) (L := L) (k := t + M - s) (by omega), List.filter_append]
        have h1 : (List.range' s (t + M - s)).filter
            (fun x => decide (x ∉ List.range' t M)) = [] := by
          rw [List.filter_eq_nil_iff]
          intro x hx
          have := List.mem_range'_1.mp hx
          simp only [decide_eq_true_eq, List.mem_range'_1, not_not]
          omega
        have h2 : (List.range' (s + (t + M - s)) (L - (t + M - s))).filter
            (fun x => decide (x ∉ List.range' t M)) =
            List.range' (s + (t + M - s)) (L - (t + M - s)) := by
          rw [List.filter_eq_self]
          intro x hx
          have := List.mem_range'_1.mp hx
          simp only [decide_eq_true_eq, List.mem_range'_1]
          omega
        rw [h1, h2, List.nil_append]
        congr 1 <;> omega
      · -- the removed interval covers the whole right part of `[s, s+L)`
        push_neg at hts
        have hcov : s + L ≤ t + M := by omega
        refine ⟨s, t - s, le_rfl, by omega, ?_⟩
        rw [range'_split (s := s) (L := L) (k := t - s) (by omega), List.filter_append]
        have h1 : (List.range' s (t - s)).filter
            (fun x => decide (x ∉ List.range' t M)) =
            List.range' s (t - s) := by
          rw [List.filter_eq_self]
          intro x hx
          have := List.mem_range'_1.mp hx
          simp only [decide_eq_true_eq, List.mem_range'_1]
          omega
        have h2 : (List.range' (s + (t - s)) (L - (t - s))).filter
            (fun x => decide (x ∉ List.range' t M)) = [] := by
          rw [List.filter_eq_nil_iff]
          intro x hx
          have := List.mem_range'_1.mp hx
          simp only [decide_eq_true_eq, List.mem_range'_1, not_not]
          omega
        rw [h1, h2, List.append_nil]

/-! ## Characterising `trimContour` -/

theorem sorted_sampleIdx (c : Contour) : List.Sorted (· < ·) c.sampleIdx :=
  sorted_lt_range' c.start c.len

/-- Python's `sorted(list(set(curr) - set(acc)))` on a strictly sorted `curr`
is the order-preserving filter of `curr` by non-membership in `acc`. -/
theorem sort_sdiff_eq_filter (l acc : List ℕ) (hs : List.Sorted (· < ·) l) :
    (l.toFinset \ acc.toFinset).sort (· ≤ ·) =
      l.filter (fun x => decide (x ∉ acc)) := by
  apply List.eq_of_perm_of_sorted (r := (· ≤ ·))
  · apply List.perm_of_nodup_nodup_toFinset_eq
    · exact Finset.sort_nodup _ _
    · exact hs.nodup.filter _
    · rw [Finset.sort_toFinset]
      ext x
      simp only [Finset.mem_sdiff, List.mem_toFinset, List.mem_filter,
        decide_eq_true_eq]
  · exact Finset.sort_sorted _ _
  · exact (hs.le_of_lt).filter _

/-- The survivors list computed inside `trimContour`. -/
def survIdx (accIdx : List ℕ) (c : Contour) : List ℕ :=
  c.sampleIdx.filter (fun x => decide (x ∉ accIdx))

/-- The error condition of line 153: numpy's fancy indexing
`array(contourSaliences[i])[keep_idx]` raises `IndexError` as soon as some
kept index is at or past the saliences length — possible only for malformed
contours with `len(saliences) < len(bins)`.  `trimContour` totalises that
path with `getD`'s default, so the condition under which the real program
aborts during trimming is stated separately here. -/
def trimSalIndexError (accIdx : List ℕ) (c : Contour) : Prop :=
  ∃ v ∈ survIdx accIdx c, c.saliences.length ≤ c.sampleIdx.indexOf v

instance (accIdx : List ℕ) (c : Contour) :
    Decidable (trimSalIndexError accIdx c) :=
  List.decidableBEx _ (survIdx accIdx c)

theorem trimContour_eq_none_iff (accIdx : List ℕ) (c : Contour) :
    trimContour accIdx c = none ↔ survIdx accIdx c = [] := by
  unfold trimContour survIdx
  rw [sort_sdiff_eq_filter _ _ (sorted_sampleIdx c)]
  cases c.sampleIdx.filter (fun x => decide (x ∉ accIdx)) <;> simp

theorem trimContour_eq_some {accIdx : List ℕ} {c : Contour} {s0 : ℕ}
    {rest : List ℕ} (h : survIdx accIdx c = s0 :: rest) :
    trimContour accIdx c =
      some ⟨s0, (s0 :: rest).map (fun v => c.bins.getD (v - c.start) 0),
                (s0 :: rest).map (fun v => c.saliences.getD (v - c.start) 0)⟩ := by
  unfold survIdx at h
  unfold trimContour
  rw [sort_sdiff_eq_filter _ _ (sorted_sampleIdx c), h]
  have hidx : ∀ v ∈ s0 :: rest, c.sampleIdx.indexOf v = v - c.start := by
    intro v hv
    have hvmem : v ∈ c.sampleIdx := by
      have hvf : v ∈ c.sampleIdx.filter (fun x => decide (x ∉ accIdx)) :=
        h ▸ hv
      exact (List.mem_filter.mp hvf).1
    exact indexOf_range' hvmem
  simp only [List.map_map]
  congr 2
  · exact List.map_congr_left fun v hv => by
      simp only [Function.comp_apply, hidx v hv]
  · exact List.map_congr_left fun v hv => by
      simp only [Function.comp_apply, hidx v hv]

theorem survIdx_sorted (accIdx : List ℕ) (c : Contour) :
    List.Sorted (· < ·) (survIdx accIdx c) :=
  (sorted_sampleIdx c).filter _

theorem mem_survIdx {accIdx : List ℕ} {c : Contour} {i : ℕ} :
    i ∈ survIdx accIdx c ↔ i ∈ c.sampleIdx ∧ i ∉ accIdx := by
  unfold survIdx
  simp [List.mem_filter]

/-- When `accIdx` is disjoint from the candidate's current range and the newly
accepted contour `a` is at least as long as the candidate, the survivors of the
candidate form a single contiguous sub-interval of its range: the accepted
range cannot sit strictly inside the (not longer) candidate, so it can only
cut samples off one end. -/
theorem survIdx_append_interval (accIdx : List ℕ) (a c : Contour)
    (hdisj : ∀ i ∈ c.sampleIdx, i ∉ accIdx) (hlen : c.len ≤ a.len) :
    ∃ d L2, d + L2 ≤ c.len ∧
      survIdx (accIdx ++ a.sampleIdx) c = List.range' (c.start + d) L2 := by
  have hcongr : survIdx (accIdx ++ a.sampleIdx) c =
      c.sampleIdx.filter (fun x => decide (x ∉ a.sampleIdx)) := by
    unfold survIdx
    apply List.filter_congr
    intro x hx
    have hxacc := hdisj x hx
    simp only [List.mem_append, decide_eq_decide]
    tauto
  obtain ⟨s2, L2, hs2, hbound, hfilter⟩ :=
    filter_range'_diff_range' (s := c.start) (L := c.len) (t := a.start)
      (M := a.len) hlen
  refine ⟨s2 - c.start, L2, by omega, ?_⟩
  rw [hcongr]
  unfold Contour.sampleIdx
  rw [hfilter]
  congr 1
  omega

/-- Full description of one trim against `accIdx ++ a.sampleIdx` under the
loop invariant facts: either the candidate is fully covered and removed, or it
is replaced by the contiguous block of its samples that survive, with values
still aligned to their original sample positions. -/
theorem trimContour_interval (accIdx : List ℕ) (a c : Contour)
    (hdisj : ∀ i ∈ c.sampleIdx, i ∉ accIdx) (hlen : c.len ≤ a.len) :
    trimContour (accIdx ++ a.sampleIdx) c = none ∨
    ∃ d L2, 0 < L2 ∧ d + L2 ≤ c.len ∧
      trimContour (accIdx ++ a.sampleIdx) c =
        some ⟨c.start + d,
              (List.range' d L2).map (fun k => c.bins.getD k 0),
              (List.range' d L2).map (fun k => c.saliences.getD k 0)⟩ ∧
      survIdx (accIdx ++ a.sampleIdx) c = List.range' (c.start + d) L2 := by
  obtain ⟨d, L2, hdL, hsurv⟩ := survIdx_append_interval accIdx a c hdisj hlen
  cases L2 with
  | zero =>
    left
    rw [trimContour_eq_none_iff, hsurv]
    rfl
  | succ L2' =>
    right
    refine ⟨d, L2' + 1, Nat.succ_pos _, hdL, ?_, hsurv⟩
    have hcons : survIdx (accIdx ++ a.sampleIdx) c =
        (c.start + d) :: List.range' (c.start + d + 1) L2' := by
      rw [hsurv, List.range'_succ]
    rw [trimContour_eq_some hcons]
    have hmap : ∀ f : ℕ → ℚ,
        ((c.start + d) :: List.range' (c.start + d + 1) L2').map
          (fun v => f (v - c.start)) =
        (List.range' d (L2' + 1)).map f := by
      intro f
      have h1 : (c.start + d) :: List.range' (c.start + d + 1) L2' =
          List.range' (c.start + d) (L2' + 1) := (List.range'_succ _ _ _).symm
      rw [h1]
      have h2 : (List.range' (c.start + d) (L2' + 1)).map
          (fun v => f (v - c.start)) =
          ((List.range' (c.start + d) (L2' + 1)).map
            (fun v => v - c.start)).map f := by
        rw [List.map_map]
        rfl
      have h3 : c.start + d - c.start = d := by omega
      rw [h2, map_sub_range' (by omega), h3]
    have hb := hmap (fun k => c.bins.getD k 0)
    have hs := hmap (fun k => c.saliences.getD k 0)
    rw [hb, hs]

/-! ## The selection loop: fuel irrelevance and the step equation -/

theorem map_len_ne_nil {ws : List Contour} (h : ws ≠ []) :
    ws.map Contour.len ≠ [] := by
  simpa using h

theorem longIdx_lt_ws {ws : List Contour} (h : ws ≠ []) :
    longIdx (ws.map Contour.len) < ws.length := by
  have h1 := longIdx_lt (map_len_ne_nil h)
  simpa using h1

/-- Each iteration of the loop removes at least the accepted contour from the
working set, so the working set shrinks strictly. -/
theorem step_shrinks (ws : List Contour) (h : ws ≠ []) (x : List ℕ) :
    ((ws.eraseIdx (longIdx (ws.map Contour.len))).filterMap
      (trimContour x)).length < ws.length := by
  have h1 := List.length_filterMap_le (trimContour x)
      (ws.eraseIdx (longIdx (ws.map Contour.len)))
  have h2 := List.length_eraseIdx ws (longIdx (ws.map Contour.len))
  have h3 := longIdx_lt_ws h
  have h4 : 0 < ws.length := List.length_pos.mpr h
  rw [if_pos h3] at h2
  omega

theorem selectionGo_fuel_irrel : ∀ (f1 f2 : ℕ) (ws accepted : List Contour)
    (accIdx : List ℕ), ws.length ≤ f1 → ws.length ≤ f2 →
    selectionGo f1 ws accepted accIdx = selectionGo f2 ws accepted accIdx := by
  intro f1
  induction f1 with
  | zero =>
    intro f2 ws accepted accIdx h1 h2
    have hws : ws = [] := List.eq_nil_of_length_eq_zero (by omega)
    subst hws
    cases f2 with
    | zero => rfl
    | succ f2 => simp [selectionGo]
  | succ f1 ih =>
    intro f2 ws accepted accIdx h1 h2
    cases f2 with
    | zero =>
      have hws : ws = [] := List.eq_nil_of_length_eq_zero (by omega)
      subst hws
      simp [selectionGo]
    | succ f2 =>
      by_cases hws : ws = []
      · subst hws; simp [selectionGo]
      · simp only [selectionGo, if_neg hws]
        apply ih
        · have := step_shrinks ws hws
          exact Nat.le_of_lt_succ (Nat.lt_of_lt_of_le (this _) h1)
        · have := step_shrinks ws hws
          exact Nat.le_of_lt_succ (Nat.lt_of_lt_of_le (this _) h2)

theorem selectionLoop_nil (accepted : List Contour) (accIdx : List ℕ) :
    selectionLoop [] accepted accIdx = ([], accepted, accIdx) := rfl

/-- The one-step equation of the selection loop: for a non-empty working set,
the first longest contour is accepted, its range is claimed, and the loop
continues on the trimmed remainder. -/
theorem selectionLoop_step {ws : List Contour} (h : ws ≠ [])
    (accepted : List Contour) (accIdx : List ℕ) :
    selectionLoop ws accepted accIdx =
      selectionLoop
        ((ws.eraseIdx (longIdx (ws.map Contour.len))).filterMap
          (trimContour
            (accIdx ++ (ws.getD (longIdx (ws.map Contour.len))
              default).sampleIdx)))
        (accepted ++ [ws.getD (longIdx (ws.map Contour.len)) default])
        (accIdx ++ (ws.getD (longIdx (ws.map Contour.len)) default).sampleIdx)
    := by
  unfold selectionLoop
  cases ws with
  | nil => cases h rfl
  | cons c rest =>
    have hstep : selectionGo (rest.length + 1) (c :: rest) accepted accIdx =
        selectionGo rest.length
          (((c :: rest).eraseIdx
              (longIdx ((c :: rest).map Contour.len))).filterMap
            (trimContour
              (accIdx ++ ((c :: rest).getD
                (longIdx ((c :: rest).map Contour.len)) default).sampleIdx)))
          (accepted ++ [(c :: rest).getD
            (longIdx ((c :: rest).map Contour.len)) default])
          (accIdx ++ ((c :: rest).getD
            (longIdx ((c :: rest).map Contour.len)) default).sampleIdx) := by
      simp only [selectionGo, if_neg h]
    have hlen : (c :: rest).length = rest.length + 1 := rfl
    rw [hlen, hstep]
    apply selectionGo_fuel_irrel
    · have := step_shrinks (c :: rest) h
      exact Nat.le_of_lt_succ (this _)
    · exact le_rfl

/-! ## Consequences of a successful or failed trim -/

theorem trim_none_mem {accIdx : List ℕ} {c : Contour}
    (hnone : trimContour accIdx c = none) : ∀ i ∈ c.sampleIdx, i ∈ accIdx := by
  rw [trimContour_eq_none_iff] at hnone
  intro i hi
  by_contra hni
  have hmem : i ∈ survIdx accIdx c := mem_survIdx.mpr ⟨hi, hni⟩
  rw [hnone] at hmem
  cases hmem

theorem trim_some_spec {accIdx : List ℕ} {a c c' : Contour}
    (hdisj : ∀ i ∈ c.sampleIdx, i ∉ accIdx) (hlen : c.len ≤ a.len)
    (hsome : trimContour (accIdx ++ a.sampleIdx) c = some c') :
    c'.wf ∧ c'.sampleIdx = survIdx (accIdx ++ a.sampleIdx) c ∧
      c.start ≤ c'.start ∧ c'.start + c'.len ≤ c.start + c.len ∧ 0 < c'.len ∧
      ∀ j < c'.len,
        c'.bins.getD j 0 = c.bins.getD (c'.start - c.start + j) 0 ∧
        c'.saliences.getD j 0 = c.saliences.getD (c'.start - c.start + j) 0 := by
  rcases trimContour_interval accIdx a c hdisj hlen with hnone |
    ⟨d, L2, hL2, hdL, hsome2, hsurv⟩
  · rw [hnone] at hsome; cases hsome
  · rw [hsome2] at hsome
    obtain rfl : c' = _ := (Option.some_injective _ hsome).symm
    refine ⟨?_, ?_, ?_, ?_, ?_, ?_⟩
    · simp [Contour.wf]
    · rw [hsurv]
      simp [Contour.sampleIdx, Contour.len]
    · show c.start ≤ c.start + d
      omega
    · show c.start + d +
        ((List.range' d L2).map (fun k => c.bins.getD k 0)).length ≤
        c.start + c.len
      simp only [List.length_map, List.length_range']
      omega
    · show 0 < ((List.range' d L2).map (fun k => c.bins.getD k 0)).length
      simpa using hL2
    · intro j hj
      have hjL : j < L2 := by simpa [Contour.len] using hj
      constructor
      · show ((List.range' d L2).map (fun k => c.bins.getD k 0)).getD j 0 =
          c.bins.getD (c.start + d - c.start + j) 0
        rw [List.getD_eq_getElem _ _ (by simpa using hjL), List.getElem_map,
          List.getElem_range']
        congr 1
        omega
      · show ((List.range' d L2).map
            (fun k => c.saliences.getD k 0)).getD j 0 =
          c.saliences.getD (c.start + d - c.start + j) 0
        rw [List.getD_eq_getElem _ _ (by simpa using hjL), List.getElem_map,
          List.getElem_range']
        congr 1
        omega

/-! ## The loop invariant -/

theorem coveredBy_append_singleton {xs : List Contour} {a : Contour} {i : ℕ} :
    coveredBy (xs ++ [a]) i ↔ coveredBy xs i ∨ i ∈ a.sampleIdx := by
  simp [coveredBy, List.mem_append, or_and_right, exists_or]

theorem getD_longIdx_mem {ws : List Contour} (h : ws ≠ []) :
    ws.getD (longIdx (ws.map Contour.len)) default ∈ ws := by
  have hlt := longIdx_lt_ws h
  rw [List.getD_eq_getElem _ _ hlt]
  exact List.getElem_mem hlt

theorem len_le_getD_longIdx {ws : List Contour} (h : ws ≠ []) :
    ∀ c ∈ ws, c.len ≤ (ws.getD (longIdx (ws.map Contour.len)) default).len := by
  intro c hc
  have hlt := longIdx_lt_ws h
  have hmax : (ws.getD (longIdx (ws.map Contour.len)) default).len =
      listMax (ws.map Contour.len) := by
    rw [List.getD_eq_getElem _ _ hlt]
    have h2 := getElem_longIdx (map_len_ne_nil h)
    rw [List.get_eq_getElem, List.getElem_map] at h2
    exact h2
  rw [hmax]
  exact le_listMax (List.mem_map_of_mem _ hc)

theorem mem_eraseIdx_or {l : List Contour} {i : ℕ} (hi : i < l.length) :
    ∀ c ∈ l, c = l[i] ∨ c ∈ l.eraseIdx i := by
  intro c hc
  by_cases hcl : c ∈ l.eraseIdx i
  · right; exact hcl
  · left
    rw [List.eraseIdx_eq_take_drop_succ] at hcl
    have hdecomp : l = l.take i ++ l[i] :: l.drop (i + 1) := by
      rw [← List.drop_eq_getElem_cons hi]
      exact (List.take_append_drop i l).symm
    rw [hdecomp] at hc
    rcases List.mem_append.mp hc with h1 | h2
    · exact absurd (List.mem_append.mpr (Or.inl h1)) hcl
    · rcases List.mem_cons.mp h2 with h3 | h4
      · exact h3
      · exact absurd (List.mem_append.mpr (Or.inr h4)) hcl

/-- Invariant of the selection loop: every remaining candidate and accepted
contour is well formed and stays inside the timeline; `acc_idx` holds exactly
the samples of the accepted contours; accepted ranges are pairwise disjoint;
remaining candidates are disjoint from `acc_idx`; and together the remaining
candidates and `acc_idx` cover exactly the samples of the original input. -/
structure SelInv (input : List Contour) (n : ℕ) (ws accepted : List Contour)
    (accIdx : List ℕ) : Prop where
  ws_wf : ∀ c ∈ ws, c.wf
  ws_bound : ∀ c ∈ ws, ∀ i ∈ c.sampleIdx, i < n
  acc_wf : ∀ c ∈ accepted, c.wf
  acc_bound : ∀ c ∈ accepted, ∀ i ∈ c.sampleIdx, i < n
  idx_iff : ∀ i, i ∈ accIdx ↔ coveredBy accepted i
  acc_disj : accepted.Pairwise fun c d => ∀ i, i ∈ c.sampleIdx → i ∉ d.sampleIdx
  ws_fresh : ∀ c ∈ ws, ∀ i ∈ c.sampleIdx, i ∉ accIdx
  cover : ∀ i, (coveredBy ws i ∨ i ∈ accIdx) ↔ coveredBy input i

/-- One loop iteration preserves the invariant. -/
theorem SelInv.step {input ws accepted : List Contour} {accIdx : List ℕ}
    {n : ℕ} (h : ws ≠ []) (inv : SelInv input n ws accepted accIdx) :
    SelInv input n
      ((ws.eraseIdx (longIdx (ws.map Contour.len))).filterMap
        (trimContour
          (accIdx ++ (ws.getD (longIdx (ws.map Contour.len))
            default).sampleIdx)))
      (accepted ++ [ws.getD (longIdx (ws.map Contour.len)) default])
      (accIdx ++ (ws.getD (longIdx (ws.map Contour.len)) default).sampleIdx)
    := by
  have hlt := longIdx_lt_ws h
  have hamem : ws.getD (longIdx (ws.map Contour.len)) default ∈ ws :=
    getD_longIdx_mem h
  have hmax := len_le_getD_longIdx h
  -- abbreviations (proof-local only)
  obtain ⟨a, ha⟩ : ∃ a, ws.getD (longIdx (ws.map Contour.len)) default = a :=
    ⟨_, rfl⟩
  rw [ha] at hamem hmax ⊢
  have hsrc : ∀ c' ∈ (ws.eraseIdx (longIdx (ws.map Contour.len))).filterMap
      (trimContour (accIdx ++ a.sampleIdx)),
      ∃ c ∈ ws, trimContour (accIdx ++ a.sampleIdx) c = some c' ∧
        c'.wf ∧ c'.sampleIdx = survIdx (accIdx ++ a.sampleIdx) c ∧
        ∀ i ∈ c'.sampleIdx, i ∈ c.sampleIdx ∧ i ∉ accIdx ++ a.sampleIdx := by
    intro c' hc'
    obtain ⟨c, hcE, hsome⟩ := List.mem_filterMap.mp hc'
    have hcws : c ∈ ws := List.mem_of_mem_eraseIdx hcE
    obtain ⟨hwf', hsurv', _, _, _, _⟩ :=
      trim_some_spec (inv.ws_fresh c hcws) (hmax c hcws) hsome
    refine ⟨c, hcws, hsome, hwf', hsurv', ?_⟩
    intro i hi
    rw [hsurv'] at hi
    exact mem_survIdx.mp hi
  constructor
  · -- ws_wf
    intro c' hc'
    obtain ⟨c, _, _, hwf', _, _⟩ := hsrc c' hc'
    exact hwf'
  · -- ws_bound
    intro c' hc' i hi
    obtain ⟨c, hcws, _, _, _, hsub⟩ := hsrc c' hc'
    exact inv.ws_bound c hcws i (hsub i hi).1
  · -- acc_wf
    intro c hc
    rcases List.mem_append.mp hc with hc1 | hc2
    · exact inv.acc_wf c hc1
    · rw [List.mem_singleton.mp hc2]
      exact inv.ws_wf a hamem
  · -- acc_bound
    intro c hc i hi
    rcases List.mem_append.mp hc with hc1 | hc2
    · exact inv.acc_bound c hc1 i hi
    · rw [List.mem_singleton.mp hc2] at hi
      exact inv.ws_bound a hamem i hi
  · -- idx_iff
    intro i
    rw [List.mem_append, coveredBy_append_singleton, inv.idx_iff i]
  · -- acc_disj
    rw [List.pairwise_append]
    refine ⟨inv.acc_disj, List.pairwise_singleton _ _, ?_⟩
    intro c hc b hb i hic hib
    rw [List.mem_singleton.mp hb] at hib
    have hiacc : i ∈ accIdx := (inv.idx_iff i).mpr ⟨c, hc, hic⟩
    exact inv.ws_fresh a hamem i hib hiacc
  · -- ws_fresh
    intro c' hc' i hi
    obtain ⟨c, _, _, _, _, hsub⟩ := hsrc c' hc'
    exact (hsub i hi).2
  · -- cover
    intro i
    rw [← inv.cover i]
    constructor
    · rintro (⟨c', hc', hi⟩ | hidx2)
      · obtain ⟨c, hcws, _, _, _, hsub⟩ := hsrc c' hc'
        exact Or.inl ⟨c, hcws, (hsub i hi).1⟩
      · rcases List.mem_append.mp hidx2 with h1 | h2
        · exact Or.inr h1
        · exact Or.inl ⟨a, hamem, h2⟩
    · rintro (⟨c, hc, hi⟩ | hidx)
      · have hget : ws[longIdx (ws.map Contour.len)] = a := by
          rw [← List.getD_eq_getElem _ default hlt, ha]
        rcases mem_eraseIdx_or hlt c hc with rfl | hcE
        · rw [hget] at hi
          exact Or.inr (List.mem_append.mpr (Or.inr hi))
        · cases htc : trimContour (accIdx ++ a.sampleIdx) c with
          | none =>
            exact Or.inr (trim_none_mem htc i hi)
          | some c' =>
            by_cases hid : i ∈ accIdx ++ a.sampleIdx
            · exact Or.inr hid
            · have hcws : c ∈ ws := List.mem_of_mem_eraseIdx hcE
              obtain ⟨_, hsurv', _, _, _, _⟩ :=
                trim_some_spec (inv.ws_fresh c hcws) (hmax c hcws) htc
              refine Or.inl ⟨c', List.mem_filterMap.mpr ⟨c, hcE, htc⟩, ?_⟩
              rw [hsurv']
              exact mem_survIdx.mpr ⟨hi, hid⟩
      · exact Or.inr (List.mem_append.mpr (Or.inl hidx))

/-- The invariant propagates through the whole loop. -/
theorem selectionLoop_inv {input : List Contour} {n : ℕ}
    (ws accepted : List Contour) (accIdx : List ℕ)
    (inv : SelInv input n ws accepted accIdx) :
    SelInv input n [] (selectionLoop ws accepted accIdx).2.1
      (selectionLoop ws accepted accIdx).2.2 := by
  by_cases h : ws = []
  · subst h
    rw [selectionLoop_nil]
    exact inv
  · rw [selectionLoop_step h]
    exact selectionLoop_inv _ _ _ (inv.step h)
termination_by ws.length
decreasing_by exact step_shrinks ws h _

/-- The loop always terminates with an empty working set: the Python `while`
exits only when `pitchContours` has been drained. -/
theorem selectionLoop_fst_eq_nil (ws accepted : List Contour)
    (accIdx : List ℕ) : (selectionLoop ws accepted accIdx).1 = [] := by
  by_cases h : ws = []
  · subst h
    rw [selectionLoop_nil]
  · rw [selectionLoop_step h]
    exact selectionLoop_fst_eq_nil _ _ _
termination_by ws.length
decreasing_by exact step_shrinks ws h _

/-- Each iteration accepts exactly one contour and strictly shrinks the
working set, so at most `ws.length` contours are ever accepted. -/
theorem selectionLoop_accepted_length (ws accepted : List Contour)
    (accIdx : List ℕ) :
    ((selectionLoop ws accepted accIdx).2.1).length ≤
      accepted.length + ws.length := by
  by_cases h : ws = []
  · subst h
    rw [selectionLoop_nil]
    simp
  · rw [selectionLoop_step h]
    have hrec := selectionLoop_accepted_length
      ((ws.eraseIdx (longIdx (ws.map Contour.len))).filterMap
        (trimContour (accIdx ++ (ws.getD (longIdx (ws.map Contour.len))
          default).sampleIdx)))
      (accepted ++ [ws.getD (longIdx (ws.map Contour.len)) default])
      (accIdx ++ (ws.getD (longIdx (ws.map Contour.len)) default).sampleIdx)
    have hshrink := step_shrinks ws h
      (accIdx ++ (ws.getD (longIdx (ws.map Contour.len)) default).sampleIdx)
    simp only [List.length_append, List.length_singleton] at hrec
    omega
termination_by ws.length
decreasing_by exact step_shrinks ws h _

/-- The invariant holds before the first iteration. -/
theorem selInv_init {input : List Contour} {n : ℕ}
    (hwf : ∀ c ∈ input, c.wf)
    (hb : ∀ c ∈ input, ∀ i ∈ c.sampleIdx, i < n) :
    SelInv input n input [] [] := by
  refine ⟨hwf, hb, by simp, by simp, ?_, by simp, by simp, ?_⟩
  · intro i
    simp [coveredBy]
  · intro i
    simp

/-! ## The write step -/

theorem getD_replicate_zero (n j : ℕ) : (List.replicate n (0 : ℚ)).getD j 0 = 0 := by
  by_cases hj : j < n
  · rw [List.getD_eq_getElem _ _ (by simpa using hj)]
    exact List.getElem_replicate _ _
  · rw [List.getD_eq_default]
    simpa using hj

/-- In-range slice assignment succeeds and replaces exactly the slice. -/
theorem writeSlice_some {arr vals : List ℚ} {start : ℕ}
    (h : start + vals.length ≤ arr.length) :
    writeSlice arr start (start + vals.length) vals =
      some (arr.take start ++ vals ++ arr.drop (start + vals.length)) := by
  unfold writeSlice
  have h1 : min start arr.length = start := by omega
  have h2 : min (start + vals.length) arr.length = start + vals.length := by
    omega
  rw [h1, h2, if_pos (by omega)]

/-- Writing an empty array over an empty slice leaves the target unchanged
(and in particular succeeds even when `start` is past the end). -/
theorem writeSlice_nil (arr : List ℚ) (start : ℕ) :
    writeSlice arr start start [] = some arr := by
  unfold writeSlice
  rw [if_pos (by simp)]
  rw [List.append_nil, List.take_append_drop]

/-- An assignment of two or more values whose slice sticks out past the end
of the array raises a broadcast error: the clamped slice is shorter than the
assigned values and the length-1 broadcast does not apply. -/
theorem writeSlice_overflow {arr vals : List ℚ} {start : ℕ}
    (h2 : 2 ≤ vals.length) (h : arr.length < start + vals.length) :
    writeSlice arr start (start + vals.length) vals = none := by
  unfold writeSlice
  rw [if_neg (by omega), if_neg (by omega)]

/-- numpy's length-1 broadcast: assigning a one-element array to a slice that
clamps to nothing (the slice starts at or past the end of the array) silently
succeeds and changes nothing. -/
theorem writeSlice_broadcast_nop {arr vals : List ℚ} {start stop : ℕ}
    (h1 : vals.length = 1) (h2 : arr.length ≤ start) (h3 : start ≤ stop) :
    writeSlice arr start stop vals = some arr := by
  unfold writeSlice
  have hlo : min start arr.length = arr.length := by omega
  have hhi : min stop arr.length = arr.length := by omega
  rw [hlo, hhi, if_neg (by omega), if_pos h1]
  rw [Nat.sub_self, List.replicate_zero, List.append_nil,
    List.take_length, List.drop_length, List.append_nil]

/-- A successful slice assignment with `start ≤ stop` preserves the length. -/
theorem writeSlice_length {arr vals res : List ℚ} {start stop : ℕ}
    (hss : start ≤ stop) (h : writeSlice arr start stop vals = some res) :
    res.length = arr.length := by
  unfold writeSlice at h
  by_cases hc : min stop arr.length - min start arr.length = vals.length
  · rw [if_pos hc] at h
    have hres := (Option.some_injective _ h).symm
    rw [hres]
    simp only [List.length_append, List.length_take, List.length_drop]
    omega
  · rw [if_neg hc] at h
    by_cases h1 : vals.length = 1
    · rw [if_pos h1] at h
      have hres := (Option.some_injective _ h).symm
      rw [hres]
      simp only [List.length_append, List.length_take, List.length_drop,
        List.length_replicate]
      omega
    · rw [if_neg h1] at h
      cases h

/-- Pointwise description of a successful in-range slice assignment. -/
theorem writeSlice_getD (arr vals : List ℚ) (start j : ℕ)
    (h : start + vals.length ≤ arr.length) :
    (arr.take start ++ vals ++ arr.drop (start + vals.length)).getD j 0 =
      if start ≤ j ∧ j < start + vals.length then vals.getD (j - start) 0
      else arr.getD j 0 := by
  rw [List.append_assoc]
  have htake : (arr.take start).length = start := by
    simp only [List.length_take]
    omega
  by_cases h1 : j < start
  · rw [if_neg (by omega)]
    rw [List.getD_append _ _ _ _ (by omega)]
    rw [List.getD_eq_getElem _ _ (by omega),
      List.getD_eq_getElem _ _ (by omega)]
    exact List.getElem_take _
  · rw [List.getD_append_right _ _ _ _ (by omega), htake]
    by_cases h2 : j < start + vals.length
    · rw [if_pos (by omega)]
      rw [List.getD_append _ _ _ _ (by omega)]
    · rw [if_neg (by omega)]
      rw [List.getD_append_right _ _ _ _ (by omega)]
      by_cases h3 : j < arr.length
      · rw [List.getD_eq_getElem _ _
          (by simp only [List.length_drop]; omega)]
        rw [List.getElem_drop]
        rw [List.getD_eq_getElem _ _ (by omega)]
        congr 1
        omega
      · rw [List.getD_eq_default _ _
          (by simp only [List.length_drop]; omega)]
        rw [List.getD_eq_default _ _ (by omega)]

theorem writeContour_eq (ps : List ℚ × List ℚ) (c : Contour) :
    writeContour ps c =
      (writeSlice ps.1 c.start (c.start + c.len) c.bins).bind fun p =>
        (writeSlice ps.2 c.start (c.start + c.len) c.saliences).bind fun s =>
          some (p, s) := rfl

theorem writeSlice_some_of (arr vals : List ℚ) (start stop : ℕ)
    (hstop : stop = start + vals.length) (h : stop ≤ arr.length) :
    writeSlice arr start stop vals =
      some (arr.take start ++ vals ++ arr.drop stop) := by
  subst hstop
  exact writeSlice_some (by omega)

theorem mem_sampleIdx {c : Contour} {j : ℕ} :
    j ∈ c.sampleIdx ↔ c.start ≤ j ∧ j < c.start + c.len := by
  unfold Contour.sampleIdx
  exact List.mem_range'_1

/-- Writing one well-formed, in-range contour succeeds, keeps the row
lengths, and changes no sample outside the contour's range. -/
theorem writeContour_some_spec {p s : List ℚ} {c : Contour} {n : ℕ}
    (hp : p.length = n) (hs : s.length = n) (hwf : c.wf)
    (hb : ∀ i ∈ c.sampleIdx, i < n) :
    ∃ p2 s2, writeContour (p, s) c = some (p2, s2) ∧ p2.length = n ∧
      s2.length = n ∧ ∀ j, j ∉ c.sampleIdx →
        p2.getD j 0 = p.getD j 0 ∧ s2.getD j 0 = s.getD j 0 := by
  have hbl : c.bins.length = c.len := rfl
  have hsl : c.saliences.length = c.len := hwf
  by_cases hlen : c.len = 0
  · have hbins : c.bins = [] := List.eq_nil_of_length_eq_zero (by omega)
    have hsal : c.saliences = [] := List.eq_nil_of_length_eq_zero (by omega)
    refine ⟨p, s, ?_, hp, hs, fun j _ => ⟨rfl, rfl⟩⟩
    rw [writeContour_eq]
    have h0 : c.start + c.len = c.start := by omega
    simp only [h0, hbins, hsal, writeSlice_nil, Option.some_bind]
  · have hpos : 0 < c.len := Nat.pos_of_ne_zero hlen
    have hin : c.start + c.len ≤ n := by
      have hmem : c.start + c.len - 1 ∈ c.sampleIdx :=
        mem_sampleIdx.mpr (by omega)
      have := hb _ hmem
      omega
    have hw1 := writeSlice_some_of p c.bins c.start (c.start + c.len)
      (by omega) (by omega)
    have hw2 := writeSlice_some_of s c.saliences c.start (c.start + c.len)
      (by omega) (by omega)
    refine ⟨p.take c.start ++ c.bins ++ p.drop (c.start + c.len),
      s.take c.start ++ c.saliences ++ s.drop (c.start + c.len),
      ?_, ?_, ?_, ?_⟩
    · rw [writeContour_eq, hw1, Option.some_bind, hw2, Option.some_bind]
    · rw [← hp]
      simp only [List.length_append, List.length_take, List.length_drop]
      omega
    · rw [← hs]
      simp only [List.length_append, List.length_take, List.length_drop]
      omega
    · intro j hj
      rw [mem_sampleIdx] at hj
      constructor
      · have hg := writeSlice_getD p c.bins c.start j (by omega)
        rw [hbl] at hg
        rw [hg, if_neg (by omega)]
      · have hg := writeSlice_getD s c.saliences c.start j (by omega)
        rw [hsl] at hg
        rw [hg, if_neg (by omega)]

/-- A contour of length at least 2 sticking out past the end of the rows
makes the write step fail with a numpy broadcast error, not silently
truncate. -/
theorem writeContour_overflow {p s : List ℚ} {c : Contour} {n : ℕ}
    (hp : p.length = n) (hpos : 2 ≤ c.len) (hover : n < c.start + c.len) :
    writeContour (p, s) c = none := by
  rw [writeContour_eq]
  have hbl : c.bins.length = c.len := rfl
  have hw1 : writeSlice p c.start (c.start + c.len) c.bins = none := by
    have h1 : c.start + c.len = c.start + c.bins.length := by omega
    rw [h1]
    exact writeSlice_overflow (by omega) (by omega)
  rw [hw1, Option.none_bind]

/-- A well-formed single-sample contour whose sample lies at or past the end
of the rows is written as a silent no-op: numpy broadcasts its one value into
the empty clamped slice and nothing changes. -/
theorem writeContour_single_nop {p s : List ℚ} {c : Contour} {n : ℕ}
    (hp : p.length = n) (hs : s.length = n) (hwf : c.wf) (h1 : c.len = 1)
    (hover : n ≤ c.start) : writeContour (p, s) c = some (p, s) := by
  rw [writeContour_eq]
  have hbl : c.bins.length = c.len := rfl
  have hw1 : writeSlice p c.start (c.start + c.len) c.bins = some p :=
    writeSlice_broadcast_nop (by omega) (by omega) (by omega)
  have hw2 : writeSlice s c.start (c.start + c.len) c.saliences = some s := by
    refine writeSlice_broadcast_nop ?_ (by omega) (by omega)
    rw [hwf]
    omega
  rw [hw1, Option.some_bind, hw2, Option.some_bind]

theorem writeContour_some_length {ps : List ℚ × List ℚ} {c : Contour}
    {p2 s2 : List ℚ} (h : writeContour ps c = some (p2, s2)) :
    p2.length = ps.1.length ∧ s2.length = ps.2.length := by
  rw [writeContour_eq] at h
  cases hw1 : writeSlice ps.1 c.start (c.start + c.len) c.bins with
  | none => rw [hw1, Option.none_bind] at h; cases h
  | some q1 =>
    rw [hw1, Option.some_bind] at h
    cases hw2 : writeSlice ps.2 c.start (c.start + c.len) c.saliences with
    | none => rw [hw2, Option.none_bind] at h; cases h
    | some q2 =>
      rw [hw2, Option.some_bind] at h
      obtain ⟨rfl, rfl⟩ : q1 = p2 ∧ q2 = s2 := by
        have := Option.some_injective _ h
        exact ⟨congrArg Prod.fst this, congrArg Prod.snd this⟩
      exact ⟨writeSlice_length (by omega) hw1, writeSlice_length (by omega) hw2⟩

theorem coveredBy_cons {c : Contour} {cs : List Contour} {i : ℕ} :
    coveredBy (c :: cs) i ↔ i ∈ c.sampleIdx ∨ coveredBy cs i := by
  simp [coveredBy]

/-- Folding the write step over well-formed, in-range contours succeeds,
keeps the row lengths, and leaves samples covered by none of them
unchanged. -/
theorem foldlM_writeContour_some {n : ℕ} :
    ∀ (accepted : List Contour) (p s : List ℚ),
    (∀ c ∈ accepted, c.wf) → (∀ c ∈ accepted, ∀ i ∈ c.sampleIdx, i < n) →
    p.length = n → s.length = n →
    ∃ p2 s2, List.foldlM writeContour (p, s) accepted = some (p2, s2) ∧
      p2.length = n ∧ s2.length = n ∧
      ∀ j, ¬ coveredBy accepted j →
        p2.getD j 0 = p.getD j 0 ∧ s2.getD j 0 = s.getD j 0 := by
  intro accepted
  induction accepted with
  | nil =>
    intro p s _ _ hp hs
    exact ⟨p, s, by rw [List.foldlM_nil]; rfl, hp, hs, fun j _ => ⟨rfl, rfl⟩⟩
  | cons c cs ih =>
    intro p s hwf hb hp hs
    obtain ⟨p1, s1, hw, hp1, hs1, hpres1⟩ :=
      writeContour_some_spec hp hs (hwf c (by simp)) (hb c (by simp))
    obtain ⟨p2, s2, hfold, hp2, hs2, hpres2⟩ :=
      ih p1 s1 (fun d hd => hwf d (by simp [hd]))
        (fun d hd => hb d (by simp [hd])) hp1 hs1
    refine ⟨p2, s2, ?_, hp2, hs2, ?_⟩
    · rw [List.foldlM_cons, hw]
      simpa using hfold
    · intro j hj
      rw [coveredBy_cons] at hj
      push_neg at hj
      obtain ⟨h1, h2⟩ := hj
      have e2 := hpres2 j h2
      have e1 := hpres1 j h1
      exact ⟨e2.1.trans e1.1, e2.2.trans e1.2⟩

/-- If any accepted contour of length at least 2 sticks out past the end of
the rows, the write fold fails with an error instead of producing truncated
rows. -/
theorem foldlM_writeContour_none {n : ℕ} :
    ∀ (accepted : List Contour) (p s : List ℚ), p.length = n →
    s.length = n → (∃ c ∈ accepted, 2 ≤ c.len ∧ n < c.start + c.len) →
    List.foldlM writeContour (p, s) accepted = none := by
  intro accepted
  induction accepted with
  | nil =>
    rintro p s _ _ ⟨c, hc, _⟩
    cases hc
  | cons c cs ih =>
    rintro p s hp hs ⟨d, hd, hdpos, hdover⟩
    rw [List.foldlM_cons]
    rcases List.mem_cons.mp hd with rfl | hdcs
    · rw [writeContour_overflow hp hdpos hdover]
      rfl
    · cases hw : writeContour (p, s) c with
      | none => rfl
      | some ps1 =>
        obtain ⟨p1, s1⟩ := ps1
        obtain ⟨hl1, hl2⟩ := writeContour_some_length hw
        have hrec := ih p1 s1 (by rw [hl1]; exact hp) (by rw [hl2]; exact hs)
          ⟨d, hdcs, hdpos, hdover⟩
        simpa using hrec

theorem getD_longIdx_len {ws : List Contour} (h : ws ≠ []) :
    (ws.getD (longIdx (ws.map Contour.len)) default).len =
      listMax (ws.map Contour.len) := by
  have hlt := longIdx_lt_ws h
  rw [List.getD_eq_getElem _ _ hlt]
  have h2 := getElem_longIdx (map_len_ne_nil h)
  rw [List.get_eq_getElem, List.getElem_map] at h2
  exact h2

/-! ## The claims -/

/-- C1: for well-formed input contours whose sample ranges lie inside
`[0, numSamples)`, the accepted contours have pairwise disjoint sample
ranges, their ranges cover exactly the sample indices covered by at least one
input contour, and the final write step (which writes each accepted contour
exactly once, in acceptance order) succeeds with no two writes touching the
same index. -/
theorem contourSelection_no_overlap_full_cover
    (contours : List Contour) (numSamples : ℕ)
    (hwf : ∀ c ∈ contours, c.wf)
    (hb : ∀ c ∈ contours, ∀ i ∈ c.sampleIdx, i < numSamples) :
    ((selectionLoop contours [] []).2.1).Pairwise
      (fun c d => ∀ i, i ∈ c.sampleIdx → i ∉ d.sampleIdx) ∧
    (∀ i, coveredBy (selectionLoop contours [] []).2.1 i ↔
      coveredBy contours i) ∧
    ∃ p s, contourSelection contours numSamples = some (p, s) := by
  have inv := selectionLoop_inv contours [] [] (selInv_init hwf hb)
  refine ⟨inv.acc_disj, ?_, ?_⟩
  · intro i
    have h1 := inv.cover i
    have h2 := inv.idx_iff i
    constructor
    · intro hcov
      rcases h1.mp (Or.inr (h2.mpr hcov)) with hres
      exact hres
    · intro hcov
      rcases h1.mpr hcov with habs | hidx
      · obtain ⟨c, hc, _⟩ := habs
        cases hc
      · exact h2.mp hidx
  · obtain ⟨p, s, hfold, _, _, _⟩ := foldlM_writeContour_some
      ((selectionLoop contours [] []).2.1) (List.replicate numSamples 0)
      (List.replicate numSamples 0) inv.acc_wf inv.acc_bound
      (List.length_replicate _ _) (List.length_replicate _ _)
    exact ⟨p, s, hfold⟩

theorem contourSelection_no_overlap_full_cover_witness :
    (∀ c ∈ [(⟨0, [1, 2, 3, 4], [1, 1, 1, 1]⟩ : Contour),
      ⟨2, [5, 6, 7, 8], [2, 2, 2, 2]⟩], c.wf) ∧
    (∀ c ∈ [(⟨0, [1, 2, 3, 4], [1, 1, 1, 1]⟩ : Contour),
      ⟨2, [5, 6, 7, 8], [2, 2, 2, 2]⟩], ∀ i ∈ c.sampleIdx, i < 6) ∧
    (((selectionLoop [(⟨0, [1, 2, 3, 4], [1, 1, 1, 1]⟩ : Contour),
        ⟨2, [5, 6, 7, 8], [2, 2, 2, 2]⟩] [] []).2.1).Pairwise
      (fun c d => ∀ i, i ∈ c.sampleIdx → i ∉ d.sampleIdx) ∧
    (∀ i, coveredBy (selectionLoop [(⟨0, [1, 2, 3, 4], [1, 1, 1, 1]⟩ :
        Contour), ⟨2, [5, 6, 7, 8], [2, 2, 2, 2]⟩] [] []).2.1 i ↔
      coveredBy [(⟨0, [1, 2, 3, 4], [1, 1, 1, 1]⟩ : Contour),
        ⟨2, [5, 6, 7, 8], [2, 2, 2, 2]⟩] i) ∧
    ∃ p s, contourSelection [(⟨0, [1, 2, 3, 4], [1, 1, 1, 1]⟩ : Contour),
      ⟨2, [5, 6, 7, 8], [2, 2, 2, 2]⟩] 6 = some (p, s)) :=
  ⟨by decide, by decide,
    contourSelection_no_overlap_full_cover _ 6 (by decide) (by decide)⟩

/-- C2: after an acceptance, each remaining candidate whose range minus the
claimed indices is non-empty gets `start_sample` set to the smallest
surviving index and has `bins`/`saliences` rebuilt to exactly the values at
the surviving indices in ascending sample order, staying in the working set;
a candidate whose surviving set is empty is removed (`trimContour` yields
`none` and `filterMap` drops it). -/
theorem trim_update (accIdx : List ℕ) (rest0 : List Contour) (c : Contour)
    (hc : c ∈ rest0) :
    (survIdx accIdx c = [] → trimContour accIdx c = none) ∧
    (survIdx accIdx c ≠ [] → ∃ c', trimContour accIdx c = some c' ∧
      c' ∈ rest0.filterMap (trimContour accIdx) ∧
      c'.start ∈ survIdx accIdx c ∧ (∀ i ∈ survIdx accIdx c, c'.start ≤ i) ∧
      List.Sorted (· < ·) (survIdx accIdx c) ∧
      c'.bins = (survIdx accIdx c).map (fun i => c.bins.getD (i - c.start) 0) ∧
      c'.saliences =
        (survIdx accIdx c).map
          (fun i => c.saliences.getD (i - c.start) 0)) := by
  constructor
  · intro h
    exact (trimContour_eq_none_iff _ _).mpr h
  · intro h
    obtain ⟨s0, rest, hsurv⟩ : ∃ s0 rest, survIdx accIdx c = s0 :: rest := by
      cases hs : survIdx accIdx c with
      | nil => exact absurd hs h
      | cons u v => exact ⟨u, v, rfl⟩
    have hsome := trimContour_eq_some hsurv
    refine ⟨_, hsome, List.mem_filterMap.mpr ⟨c, hc, hsome⟩, ?_, ?_,
      survIdx_sorted _ _, ?_, ?_⟩
    · rw [hsurv]
      exact List.mem_cons_self _ _
    · intro i hi
      rw [hsurv] at hi
      rcases List.mem_cons.mp hi with rfl | hi2
      · exact le_rfl
      · have hsorted := survIdx_sorted accIdx c
        rw [hsurv] at hsorted
        exact le_of_lt (List.rel_of_sorted_cons hsorted i hi2)
    · rw [hsurv]
    · rw [hsurv]

theorem trim_update_witness :
    ((⟨0, [1, 2, 3], [4, 5, 6]⟩ : Contour) ∈
      [(⟨0, [1, 2, 3], [4, 5, 6]⟩ : Contour)]) ∧
    ((survIdx [0, 1] ⟨0, [1, 2, 3], [4, 5, 6]⟩ = [] →
      trimContour [0, 1] ⟨0, [1, 2, 3], [4, 5, 6]⟩ = none) ∧
    (survIdx [0, 1] ⟨0, [1, 2, 3], [4, 5, 6]⟩ ≠ [] → ∃ c',
      trimContour [0, 1] ⟨0, [1, 2, 3], [4, 5, 6]⟩ = some c' ∧
      c' ∈ [(⟨0, [1, 2, 3], [4, 5, 6]⟩ : Contour)].filterMap
        (trimContour [0, 1]) ∧
      c'.start ∈ survIdx [0, 1] ⟨0, [1, 2, 3], [4, 5, 6]⟩ ∧
      (∀ i ∈ survIdx [0, 1] ⟨0, [1, 2, 3], [4, 5, 6]⟩, c'.start ≤ i) ∧
      List.Sorted (· < ·) (survIdx [0, 1] ⟨0, [1, 2, 3], [4, 5, 6]⟩) ∧
      c'.bins = (survIdx [0, 1] ⟨0, [1, 2, 3], [4, 5, 6]⟩).map
        (fun i => List.getD [1, 2, 3] (i - 0) 0) ∧
      c'.saliences = (survIdx [0, 1] ⟨0, [1, 2, 3], [4, 5, 6]⟩).map
        (fun i => List.getD [4, 5, 6] (i - 0) 0))) :=
  ⟨by decide, trim_update [0, 1] _ _ (by decide)⟩

/-- C3: in every iteration on a non-empty working set, the accepted contour
sits at `longIdx` of the current lengths, every candidate's length is at most
the accepted one's, every candidate strictly before `longIdx` is strictly
shorter (the first-encountered maximum of a linear scan wins ties), and the
loop — a pure function of its input — recurses exactly on that choice. -/
theorem selection_first_max (ws accepted : List Contour) (accIdx : List ℕ)
    (h : ws ≠ []) :
    longIdx (ws.map Contour.len) < ws.length ∧
    (∀ c ∈ ws, c.len ≤ (ws.getD (longIdx (ws.map Contour.len)) default).len) ∧
    (∀ j, j < longIdx (ws.map Contour.len) → ∀ hj : j < ws.length,
      (ws.get ⟨j, hj⟩).len <
        (ws.getD (longIdx (ws.map Contour.len)) default).len) ∧
    selectionLoop ws accepted accIdx =
      selectionLoop
        ((ws.eraseIdx (longIdx (ws.map Contour.len))).filterMap
          (trimContour (accIdx ++ (ws.getD (longIdx (ws.map Contour.len))
            default).sampleIdx)))
        (accepted ++ [ws.getD (longIdx (ws.map Contour.len)) default])
        (accIdx ++ (ws.getD (longIdx (ws.map Contour.len)) default).sampleIdx)
    := by
  refine ⟨longIdx_lt_ws h, len_le_getD_longIdx h, ?_,
    selectionLoop_step h accepted accIdx⟩
  intro j hj hjlen
  have hjm : j < (ws.map Contour.len).length := by simpa using hjlen
  have hne : (ws.map Contour.len).get ⟨j, hjm⟩ ≠ listMax (ws.map Contour.len)
    := getElem_ne_of_lt_indexOf hj hjm
  have hle : (ws.map Contour.len).get ⟨j, hjm⟩ ≤
      listMax (ws.map Contour.len) :=
    le_listMax (List.getElem_mem hjm)
  have hgm : (ws.map Contour.len).get ⟨j, hjm⟩ = (ws.get ⟨j, hjlen⟩).len := by
    simp [List.getElem_map]
  rw [getD_longIdx_len h]
  omega


/-- A two-contour example working set: a length-2 contour followed by another
length-2 contour (a tie, so the scan must pick the first). -/
def wsEx : List Contour := [⟨0, [1, 2], [1, 1]⟩, ⟨5, [3, 4], [1, 1]⟩]

theorem selection_first_max_witness :
    wsEx ≠ [] ∧
    (longIdx (wsEx.map Contour.len) < wsEx.length ∧
    (∀ c ∈ wsEx,
      c.len ≤ (wsEx.getD (longIdx (wsEx.map Contour.len)) default).len) ∧
    (∀ j, j < longIdx (wsEx.map Contour.len) → ∀ hj : j < wsEx.length,
      (wsEx.get ⟨j, hj⟩).len <
        (wsEx.getD (longIdx (wsEx.map Contour.len)) default).len) ∧
    selectionLoop wsEx [] [] =
      selectionLoop
        ((wsEx.eraseIdx (longIdx (wsEx.map Contour.len))).filterMap
          (trimContour
            ([] ++ (wsEx.getD (longIdx (wsEx.map Contour.len))
              default).sampleIdx)))
        ([] ++ [wsEx.getD (longIdx (wsEx.map Contour.len)) default])
        ([] ++ (wsEx.getD (longIdx (wsEx.map Contour.len))
          default).sampleIdx)) :=
  ⟨by decide, selection_first_max wsEx [] [] (by decide)⟩

/-- C4: under the loop invariant facts (the candidate is disjoint from the
previously claimed indices and no longer than the newly accepted contour),
a surviving candidate's surviving index set is exactly its new contiguous
range — the claimed interval can only cut samples off the candidate's ends,
never split it — and the compacting rebuild keeps every value aligned with
its original sample position. -/
theorem trim_contiguous (accIdx : List ℕ) (a c c' : Contour)
    (hdisj : ∀ i ∈ c.sampleIdx, i ∉ accIdx) (hlen : c.len ≤ a.len)
    (hsome : trimContour (accIdx ++ a.sampleIdx) c = some c') :
    c'.sampleIdx = survIdx (accIdx ++ a.sampleIdx) c ∧
    c.start ≤ c'.start ∧ c'.start + c'.len ≤ c.start + c.len ∧
    ∀ j, j < c'.len →
      c'.bins.getD j 0 = c.bins.getD (c'.start - c.start + j) 0 ∧
      c'.saliences.getD j 0 = c.saliences.getD (c'.start - c.start + j) 0 := by
  obtain ⟨_, h1, h2, h3, _, h4⟩ := trim_some_spec hdisj hlen hsome
  exact ⟨h1, h2, h3, h4⟩

/-- Candidate contour for the C4 witness: occupies samples `[2, 6)`. -/
def cEx : Contour := ⟨2, [1, 2, 3, 4], [5, 6, 7, 8]⟩

/-- Accepted contour for the C4 witness: occupies samples `[4, 8)`. -/
def aEx : Contour := ⟨4, [9, 9, 9, 9], [9, 9, 9, 9]⟩

/-- The trimmed candidate: samples `[2, 4)` survive. -/
def cEx2 : Contour := ⟨2, [1, 2], [5, 6]⟩

theorem trim_contiguous_witness :
    (∀ i ∈ cEx.sampleIdx, i ∉ ([] : List ℕ)) ∧
    cEx.len ≤ aEx.len ∧
    trimContour ([] ++ aEx.sampleIdx) cEx = some cEx2 ∧
    (cEx2.sampleIdx = survIdx ([] ++ aEx.sampleIdx) cEx ∧
    cEx.start ≤ cEx2.start ∧ cEx2.start + cEx2.len ≤ cEx.start + cEx.len ∧
    ∀ j, j < cEx2.len →
      cEx2.bins.getD j 0 = cEx.bins.getD (cEx2.start - cEx.start + j) 0 ∧
      cEx2.saliences.getD j 0 =
        cEx.saliences.getD (cEx2.start - cEx.start + j) 0) := by
  have htrim : trimContour ([] ++ aEx.sampleIdx) cEx = some cEx2 := by
    rw [trimContour_eq_some
      (show survIdx ([] ++ aEx.sampleIdx) cEx = 2 :: [3] from by decide)]
    rfl
  exact ⟨by decide, by decide, htrim,
    trim_contiguous [] aEx cEx cEx2 (by decide) (by decide) htrim⟩

/-- C5 counterexample: `ContourSelection` empties the contour lists it is
handed (the `while` loop pops them until `pitchContours` is empty), so a
second invocation sharing the same list objects sees empty input and returns
the all-zero rows instead of the first result. -/
theorem rerun_on_shared_lists_differs :
    (selectionLoop [(⟨0, [10, 10, 10], [1, 1, 1]⟩ : Contour)] [] []).1 = [] ∧
    contourSelection
        ((selectionLoop [(⟨0, [10, 10, 10], [1, 1, 1]⟩ : Contour)] []
          []).1) 5 ≠
      contourSelection [(⟨0, [10, 10, 10], [1, 1, 1]⟩ : Contour)] 5 := by
  decide

/-- C5 amended: the loop always drains the shared working lists, and a rerun
on that drained state yields the all-zero timeline; identical output is only
guaranteed for a second run on a fresh copy of the input (the function is
deterministic on equal input values). -/
theorem selection_consumes_input (contours accepted : List Contour)
    (accIdx : List ℕ) (n : ℕ) :
    (selectionLoop contours accepted accIdx).1 = [] ∧
    contourSelection ((selectionLoop contours accepted accIdx).1) n =
      some (List.replicate n 0, List.replicate n 0) := by
  refine ⟨selectionLoop_fst_eq_nil _ _ _, ?_⟩
  rw [selectionLoop_fst_eq_nil]
  rfl

/-- C6 counterexample: a malformed contour (length 0) is not rejected with a
validation error — the selection algorithm runs on it to completion and
returns the all-zero rows. -/
theorem malformed_contour_not_rejected :
    contourSelection [(⟨0, [], []⟩ : Contour)] 5 =
      some (List.replicate 5 0, List.replicate 5 0) := by
  decide

/-- C6 amended: the code performs no input validation.  A zero-length
contour is not rejected: the algorithm runs on it and returns the all-zero
timeline.  A contour with `len(bins) != len(saliences)` is also not rejected
before the algorithm — execution enters the selection loop and fails, if at
all, only during it: in the concrete single-contour run below the failure is
the write step's broadcast error, while a mismatched candidate that gets
trimmed can already abort inside the trimming loop, where line 153's fancy
indexing hits an index past the saliences length (`trimSalIndexError`, fired
below by a 5-bin/2-salience candidate trimmed against an accepted 6-sample
contour). -/
theorem no_input_validation :
    (∀ (s n : ℕ), contourSelection [(⟨s, [], []⟩ : Contour)] n =
      some (List.replicate n 0, List.replicate n 0)) ∧
    contourSelection [(⟨0, [1, 2], [1, 2, 3]⟩ : Contour)] 5 = none ∧
    trimSalIndexError
      ([] ++ (⟨0, [1, 1, 1, 1, 1, 1], [1, 1, 1, 1, 1, 1]⟩ :
        Contour).sampleIdx)
      ⟨2, [2, 2, 2, 2, 2], [3, 3]⟩ := by
  refine ⟨?_, by decide, by decide⟩
  · intro s n
    have h1 : selectionLoop [(⟨s, [], []⟩ : Contour)] [] [] =
        ([], [⟨s, [], []⟩], []) := rfl
    have h2 : contourSelection [(⟨s, [], []⟩ : Contour)] n =
        List.foldlM writeContour
          (List.replicate n 0, List.replicate n 0)
          [(⟨s, [], []⟩ : Contour)] := by
      show ((selectionLoop [(⟨s, [], []⟩ : Contour)] [] []).2.1).foldlM
        writeContour (List.replicate n 0, List.replicate n 0) = _
      rw [h1]
    rw [h2, List.foldlM_cons]
    have h3 : writeContour (List.replicate n 0, List.replicate n 0)
        ⟨s, [], []⟩ = some (List.replicate n 0, List.replicate n 0) := by
      rw [writeContour_eq]
      simp only [Contour.len, List.length_nil, Nat.add_zero, writeSlice_nil,
        Option.some_bind]
    rw [h3]
    rfl

/-- C7 counterexample: a well-formed single-sample contour past the end of
the timeline is silently dropped — numpy broadcasts its one value into the
empty clamped slice, the run completes without error, and the all-zero rows
come back with the contour's value clamped away — refuting the claim that
out-of-range values are never silently truncated to fit. -/
theorem single_sample_overflow_dropped :
    contourSelection [(⟨5, [1], [1]⟩ : Contour)] 5 =
      some (List.replicate 5 0, List.replicate 5 0) := by
  decide

/-- C7 amended: in the write step, an accepted contour of length at least 2
whose range extends past `numSamples` aborts the fold with a numpy broadcast
error — its values are never clamped to fit (concrete end-to-end instance
included); but a well-formed single-sample accepted contour at or past
`numSamples` is silently dropped: numpy broadcasts its one value into the
empty clamped slice and the rows are unchanged. -/
theorem overflow_write_behavior :
    (∀ (accepted : List Contour) (p s : List ℚ) (n : ℕ), p.length = n →
      s.length = n → (∃ c ∈ accepted, 2 ≤ c.len ∧ n < c.start + c.len) →
      List.foldlM writeContour (p, s) accepted = none) ∧
    (∀ (p s : List ℚ) (c : Contour) (n : ℕ), p.length = n → s.length = n →
      c.wf → c.len = 1 → n ≤ c.start → writeContour (p, s) c = some (p, s)) ∧
    contourSelection [(⟨3, [1, 1, 1], [1, 1, 1]⟩ : Contour)] 5 = none := by
  refine ⟨?_, ?_, ?_⟩
  · intro accepted p s n hp hs hbad
    exact foldlM_writeContour_none accepted p s hp hs hbad
  · intro p s c n hp hs hwf h1 hover
    exact writeContour_single_nop hp hs hwf h1 hover
  · decide

theorem overflow_write_behavior_witness :
    ((List.replicate 5 (0 : ℚ)).length = 5 ∧
      (∃ c ∈ [(⟨3, [1, 1, 1], [1, 1, 1]⟩ : Contour)],
        2 ≤ c.len ∧ 5 < c.start + c.len) ∧
      List.foldlM writeContour
        (List.replicate 5 (0 : ℚ), List.replicate 5 (0 : ℚ))
        [(⟨3, [1, 1, 1], [1, 1, 1]⟩ : Contour)] = none) ∧
    ((⟨5, [1], [1]⟩ : Contour).wf ∧ (⟨5, [1], [1]⟩ : Contour).len = 1 ∧
      5 ≤ (⟨5, [1], [1]⟩ : Contour).start ∧
      writeContour (List.replicate 5 (0 : ℚ), List.replicate 5 (0 : ℚ))
        ⟨5, [1], [1]⟩ =
        some (List.replicate 5 (0 : ℚ), List.replicate 5 (0 : ℚ))) :=
  ⟨⟨by decide, by decide,
      overflow_write_behavior.1 _ _ _ 5 (by decide) (by decide) (by decide)⟩,
    ⟨by decide, by decide, by decide,
      overflow_write_behavior.2.1 _ _ _ 5 (by decide) (by decide) (by decide)
        (by decide) (by decide)⟩⟩

/-- C8: every sample index in `[0, numSamples)` covered by no input contour
holds `0` in both output rows, and the empty input yields the all-zero rows
of length `numSamples` without error. -/
theorem zero_fill_default (contours : List Contour) (n : ℕ)
    (hwf : ∀ c ∈ contours, c.wf)
    (hb : ∀ c ∈ contours, ∀ i ∈ c.sampleIdx, i < n) :
    (∃ p s, contourSelection contours n = some (p, s) ∧ p.length = n ∧
      s.length = n ∧ ∀ j, j < n → ¬ coveredBy contours j →
        p.getD j 0 = 0 ∧ s.getD j 0 = 0) ∧
    contourSelection [] n = some (List.replicate n 0, List.replicate n 0)
    := by
  constructor
  · have inv := selectionLoop_inv contours [] [] (selInv_init hwf hb)
    obtain ⟨p, s, hfold, hp, hs, hpres⟩ := foldlM_writeContour_some
      ((selectionLoop contours [] []).2.1) (List.replicate n 0)
      (List.replicate n 0) inv.acc_wf inv.acc_bound
      (List.length_replicate _ _) (List.length_replicate _ _)
    refine ⟨p, s, ?_, hp, hs, ?_⟩
    · exact hfold
    · intro j hj hjcov
      have hnacc : ¬ coveredBy (selectionLoop contours [] []).2.1 j := by
        intro habs
        exact hjcov ((inv.cover j).mp (Or.inr ((inv.idx_iff j).mpr habs)))
      obtain ⟨e1, e2⟩ := hpres j hnacc
      exact ⟨e1.trans (getD_replicate_zero _ _),
        e2.trans (getD_replicate_zero _ _)⟩
  · rfl

theorem zero_fill_default_witness :
    (∀ c ∈ [(⟨0, [10, 10, 10], [1, 1, 1]⟩ : Contour)], c.wf) ∧
    (∀ c ∈ [(⟨0, [10, 10, 10], [1, 1, 1]⟩ : Contour)],
      ∀ i ∈ c.sampleIdx, i < 5) ∧
    ((∃ p s, contourSelection [(⟨0, [10, 10, 10], [1, 1, 1]⟩ : Contour)] 5 =
        some (p, s) ∧ p.length = 5 ∧ s.length = 5 ∧
        ∀ j, j < 5 →
          ¬ coveredBy [(⟨0, [10, 10, 10], [1, 1, 1]⟩ : Contour)] j →
          p.getD j 0 = 0 ∧ s.getD j 0 = 0) ∧
    contourSelection [] 5 =
      some (List.replicate 5 0, List.replicate 5 0)) :=
  ⟨by decide, by decide, zero_fill_default _ 5 (by decide) (by decide)⟩

/-- C9: the selection loop terminates — every iteration removes at least the
accepted contour from the working set, so the working set strictly shrinks —
and the whole run accepts at most as many contours as it was given (one per
iteration). -/
theorem selection_terminates (contours : List Contour) :
    ((selectionLoop contours [] []).2.1).length ≤ contours.length ∧
    ∀ (ws : List Contour) (x : List ℕ), ws ≠ [] →
      ((ws.eraseIdx (longIdx (ws.map Contour.len))).filterMap
        (trimContour x)).length < ws.length := by
  constructor
  · have h := selectionLoop_accepted_length contours [] []
    simpa using h
  · intro ws x h
    exact step_shrinks ws h x

theorem selection_terminates_witness :
    ((selectionLoop [(⟨0, [1], [1]⟩ : Contour)] [] []).2.1).length ≤ 1 ∧
    ([(⟨0, [1], [1]⟩ : Contour)] ≠ []) ∧
    ((([(⟨0, [1], [1]⟩ : Contour)].eraseIdx
        (longIdx ([(⟨0, [1], [1]⟩ : Contour)].map Contour.len))).filterMap
      (trimContour [])).length < 1) :=
  ⟨(selection_terminates [⟨0, [1], [1]⟩]).1, by decide,
    (selection_terminates [⟨0, [1], [1]⟩]).2 [⟨0, [1], [1]⟩] [] (by decide)⟩

/-- C10: the downstream Hz row is the pointwise image of the selected pitch
row under `0 if p == 0 else referenceFrequency * 2^(binResolution*p/1200)`
with `referenceFrequency` fixed at 55 Hz (and `binResolution` at 7.5). -/
theorem pitchToHz_matches_spec (pitch : List ℚ) (i : ℕ)
    (hi : i < pitch.length) :
    binResolution = 7.5 ∧
    (pitchToHz pitch).length = pitch.length ∧
    (pitchToHz pitch).getD i 0 =
      specHzFormula 55 binResolution (pitch.getD i 0) := by
  refine ⟨rfl, by simp [pitchToHz], ?_⟩
  unfold pitchToHz
  rw [List.getD_eq_getElem _ _ (by simpa using hi), List.getElem_map,
    List.getD_eq_getElem _ _ hi]
  rfl

theorem pitchToHz_matches_spec_witness :
    0 < ([(0 : ℚ)] : List ℚ).length ∧
    (binResolution = 7.5 ∧
    (pitchToHz [(0 : ℚ)]).length = ([(0 : ℚ)] : List ℚ).length ∧
    (pitchToHz [(0 : ℚ)]).getD 0 0 =
      specHzFormula 55 binResolution (([(0 : ℚ)] : List ℚ).getD 0 0)) :=
  ⟨by decide, pitchToHz_matches_spec [0] 0 (by decide)⟩
